import Mathlib

/-!
Verification of the carousel-wheel launcher (`emulator.py`, `emulator_utils.py`).

The wheel state machine, the bottom-item selection search, the left/right key
handling and the power-button debounce logic are embedded over exact rational
arithmetic (`ℚ` standing for the Python floats, `ℤ` for Python ints).  Python's
float modulo `x % m` (sign of the modulus, here always positive) is `qmod`;
Python's int modulo with its `ZeroDivisionError` on a zero modulus is `pyMod`,
returning `Except`.  The irrational constant `math.pi` is carried as an
abstract positive rational parameter `pi`: every theorem about the radian
geometry holds for all positive values of the parameter, in particular for any
float approximation of π.
-/

namespace Shugr

/-- Python float modulo for a real-valued left operand and positive modulus:
`x % m = x - m * ⌊x / m⌋` (result has the sign of `m`). -/
def qmod (x m : ℚ) : ℚ := x - m * ⌊x / m⌋

/-- Errors raised by the embedded Python fragments. -/
inductive PyError
  | zeroDivision
deriving DecidableEq

/-- Python integer modulo: `a % b` raises `ZeroDivisionError` when `b = 0`,
otherwise returns the representative in `[0, b)` for positive `b`
(Lean's `Int.emod` agrees with Python's `%` for positive moduli). -/
def pyMod (a b : ℤ) : Except PyError ℤ :=
  if b = 0 then .error .zeroDivision else .ok (a % b)

/-- State of `WheelUI` (`emulator.py` lines 106–162): discrete indices, the
animated `master_angle`, the instantaneous `target_angle`, and the item count. -/
structure WheelUI where
  master_index : ℤ
  target_index : ℤ
  master_angle : ℚ
  target_angle : ℚ
  num_items : ℕ
deriving DecidableEq

/-- `self.angle_increment = 360 / self.num_items if self.num_items > 0 else 0`
(`emulator.py` line 130). -/
def angle_increment (n : ℕ) : ℚ := if 0 < n then 360 / n else 0

/-- `WheelUI.__init__` (lines 114–119): all indices and angles start at zero. -/
def WheelUI.init (n : ℕ) : WheelUI := ⟨0, 0, 0, 0, n⟩

/-- The signed shorter-way angle difference computed inside `WheelUI.update`
(lines 149–154): `(target_angle % 360 - master_angle) % 360`, remapped into
`(-180, 180]` by subtracting `360` from values above `180`. -/
def angleDiff (w : WheelUI) : ℚ :=
  let d := qmod (qmod w.target_angle 360 - w.master_angle) 360
  if 180 < d then d - 360 else d

/-- `WheelUI.update` (lines 145–162): copy `target_index` into `master_index`,
normalize `target_angle`, move `master_angle` by `0.15` of the remapped
difference when it exceeds `1°` and snap it to `target_angle` otherwise, then
normalize `master_angle`. -/
def WheelUI.update (w : WheelUI) : WheelUI :=
  let ta := qmod w.target_angle 360
  let d := angleDiff w
  let ma := if 1 < |d| then w.master_angle + d * (15 / 100) else ta
  { w with master_index := w.target_index, target_angle := ta,
           master_angle := qmod ma 360 }

/-- The `K_LEFT` branch of `PygameEmulator.run` (lines 524–526):
`target_index = (target_index - 1) % num_items` followed by
`target_angle = angle_increment * target_index`.  The Python `%` raises
`ZeroDivisionError` when `num_items = 0`, leaving the wheel unmodified. -/
def keyLeft (w : WheelUI) : Except PyError WheelUI :=
  match pyMod (w.target_index - 1) (w.num_items : ℤ) with
  | .error e => .error e
  | .ok i => .ok { w with target_index := i,
                          target_angle := angle_increment w.num_items * (i : ℚ) }

/-- The `K_RIGHT` branch of `PygameEmulator.run` (lines 527–529). -/
def keyRight (w : WheelUI) : Except PyError WheelUI :=
  match pyMod (w.target_index + 1) (w.num_items : ℤ) with
  | .error e => .error e
  | .ok i => .ok { w with target_index := i,
                          target_angle := angle_increment w.num_items * (i : ℚ) }

/-- The selection-index computation of `PygameEmulator.draw_menu`
(lines 484–485): `abs(len(games) - 1 - master_index) + 1`, reduced modulo
`len(games)` — an unguarded Python `%` that raises on an empty catalog. -/
def selected_index (numGames : ℕ) (masterIndex : ℤ) : Except PyError ℤ :=
  pyMod (|(numGames : ℤ) - 1 - masterIndex| + 1) (numGames : ℤ)

/-- One user-visible operation on the wheel: a left key press, a right key
press, or one frame of the interpolation (`WheelUI.update`). -/
inductive WheelOp
  | left
  | right
  | frame

/-- Apply one operation.  A `ZeroDivisionError` inside a key handler
propagates before any field assignment, so the wheel state is unchanged. -/
def applyOp (w : WheelUI) : WheelOp → WheelUI
  | .left => match keyLeft w with
    | .ok w' => w'
    | .error _ => w
  | .right => match keyRight w with
    | .ok w' => w'
    | .error _ => w
  | .frame => w.update

/-- `math.radians`: degrees to radians, `x * (pi / 180)`, with the float
constant `math.pi` abstracted as the parameter `pi`. -/
def radians (pi x : ℚ) : ℚ := x * (pi / 180)

/-- A `WheelItem` as far as selection is concerned (`emulator.py` lines
186–198): its catalog index and its fixed base angle in radians. -/
structure WheelItem where
  index : ℕ
  angle : ℚ
deriving DecidableEq

/-- The item built by the `WheelUI.__init__` loop (lines 133–143) for catalog
position `i`: `base_angle = math.radians(angle_increment * i + 90)`. -/
def mkItem (pi : ℚ) (n i : ℕ) : WheelItem :=
  ⟨i, radians pi (angle_increment n * (i : ℚ) + 90)⟩

/-- The full item collection, in insertion (catalog) order. -/
def mkItems (pi : ℚ) (n : ℕ) : List WheelItem :=
  (List.range n).map (mkItem pi n)

/-- The per-item angular distance of `WheelUI.get_bottom_item` (lines
169–176): effective angle `(item.angle + radians(master_angle)) % 2π`,
absolute difference to `bottom_angle = radians(90) = π/2`, replaced by the
wrap-around distance when it exceeds `π`. -/
def itemDist (pi master : ℚ) (item : WheelItem) : ℚ :=
  let ia := qmod (item.angle + radians pi master) (2 * pi)
  let d := |ia - radians pi 90|
  if pi < d then 2 * pi - d else d

/-- One iteration of the `get_bottom_item` loop (lines 169–180): `none` in the
second component models the initial `min_diff = float('inf')`, which every
finite distance beats; afterwards only a strictly smaller distance replaces
the current best. -/
def bottomStep (pi master : ℚ) (acc : Option WheelItem × Option ℚ)
    (item : WheelItem) : Option WheelItem × Option ℚ :=
  let d := itemDist pi master item
  match acc with
  | (_, none) => (some item, some d)
  | (c, some m) => if d < m then (some item, some d) else (c, some m)

/-- `WheelUI.get_bottom_item` (lines 164–182): fold the loop over the item
collection and return the closest item (`None` when the collection is empty). -/
def WheelUI.get_bottom_item (pi : ℚ) (w : WheelUI) (items : List WheelItem) :
    Option WheelItem :=
  (items.foldl (bottomStep pi w.master_angle) (none, none)).1

/-- What `WheelItem.draw` (lines 256–264) does to the item's size:
`zoomIn` for the call `self.zoom_in(2)`, `zoomOut` for `self.zoom_out()`,
`keep` when neither is called. -/
inductive ZoomAction
  | zoomIn
  | zoomOut
  | keep
deriving DecidableEq

/-- The size-animation decision of `WheelItem.draw` (lines 256–264): the item
matching `get_bottom_item` grows iff `abs(master_angle - target_angle) < 6`
and otherwise keeps its size; every other item (and every item when the
collection is empty) shrinks back. -/
def drawZoom (pi : ℚ) (w : WheelUI) (items : List WheelItem)
    (it : WheelItem) : ZoomAction :=
  match w.get_bottom_item pi items with
  | some b =>
    if it.index = b.index then
      (if |w.master_angle - w.target_angle| < 6 then .zoomIn else .keep)
    else .zoomOut
  | none => .zoomOut

/-- State of `PowerButtonMonitor` (lines 56–75). -/
structure PowerButtonMonitor where
  debounce_time : ℚ
  last_time : ℚ
deriving DecidableEq

/-- `PowerButtonMonitor._handle_button_press` (lines 70–75): accept the press
(emit a quit event and remember its time) iff at least `debounce_time` has
passed since the last accepted press; otherwise drop it silently. -/
def handlePress (m : PowerButtonMonitor) (t : ℚ) : PowerButtonMonitor × Bool :=
  if m.debounce_time ≤ t - m.last_time then ({ m with last_time := t }, true)
  else (m, false)

/-- Feed a sequence of press timestamps to the monitor and collect the times
of the quit events it emits. -/
def monitorRun (m : PowerButtonMonitor) : List ℚ → List ℚ
  | [] => []
  | t :: ts =>
    let r := handlePress m t
    if r.2 then t :: monitorRun r.1 ts else monitorRun r.1 ts

/-! ### Basic facts about `qmod` -/

theorem qmod_nonneg {m : ℚ} (hm : 0 < m) (x : ℚ) : 0 ≤ qmod x m := by
  unfold qmod
  have h := Int.fract_nonneg (x / m)
  have hfr : (Int.fract (x / m)) = x / m - ⌊x / m⌋ := rfl
  have : 0 ≤ m * (x / m - ⌊x / m⌋) := mul_nonneg hm.le (by rw [← hfr]; exact h)
  have hx : m * (x / m) = x := by field_simp
  nlinarith [this, hx]

theorem qmod_lt {m : ℚ} (hm : 0 < m) (x : ℚ) : qmod x m < m := by
  unfold qmod
  have h := Int.fract_lt_one (x / m)
  have hfr : (Int.fract (x / m)) = x / m - ⌊x / m⌋ := rfl
  have hmul : m * (x / m - ⌊x / m⌋) < m * 1 := by
    apply mul_lt_mul_of_pos_left _ hm
    rw [← hfr]; exact h
  have hx : m * (x / m) = x := by field_simp
  nlinarith [hmul, hx]

theorem qmod_eq_self {m : ℚ} (hm : 0 < m) {x : ℚ} (h0 : 0 ≤ x) (h1 : x < m) :
    qmod x m = x := by
  unfold qmod
  have hfl : ⌊x / m⌋ = 0 := by
    rw [Int.floor_eq_zero_iff]
    constructor
    · exact div_nonneg h0 hm.le
    · exact (div_lt_one hm).mpr h1
  rw [hfl]
  push_cast
  ring

theorem qmod_exists (x m : ℚ) : ∃ k : ℤ, x = qmod x m + m * k :=
  ⟨⌊x / m⌋, by unfold qmod; ring⟩

theorem qmod_add_int_mul (x m : ℚ) (k : ℤ) : qmod (x + m * k) m = qmod x m := by
  by_cases hm : m = 0
  · subst hm; simp [qmod]
  · unfold qmod
    have hdiv : (x + m * k) / m = x / m + (k : ℚ) := by field_simp; ring
    rw [hdiv, Int.floor_add_int]
    push_cast
    ring

theorem qmod_congr {x y m : ℚ} (h : ∃ k : ℤ, x = y + m * k) :
    qmod x m = qmod y m := by
  obtain ⟨k, hk⟩ := h
  rw [hk, qmod_add_int_mul]

/-! ### The remapped angle difference -/

theorem angleDiff_def (w : WheelUI) :
    angleDiff w =
      if 180 < qmod (qmod w.target_angle 360 - w.master_angle) 360 then
        qmod (qmod w.target_angle 360 - w.master_angle) 360 - 360
      else qmod (qmod w.target_angle 360 - w.master_angle) 360 := rfl

theorem angleDiff_mem (w : WheelUI) :
    -180 < angleDiff w ∧ angleDiff w ≤ 180 := by
  rw [angleDiff_def]
  have h360 : (0 : ℚ) < 360 := by norm_num
  have h0 := qmod_nonneg h360 (qmod w.target_angle 360 - w.master_angle)
  have h1 := qmod_lt h360 (qmod w.target_angle 360 - w.master_angle)
  split_ifs with h
  · constructor <;> linarith
  · constructor <;> linarith

theorem angleDiff_exists_norm (w : WheelUI) :
    ∃ k : ℤ, angleDiff w = qmod w.target_angle 360 - w.master_angle + 360 * k := by
  rw [angleDiff_def]
  obtain ⟨j, hj⟩ := qmod_exists (qmod w.target_angle 360 - w.master_angle) 360
  split_ifs with h
  · exact ⟨-j - 1, by push_cast; linarith⟩
  · exact ⟨-j, by push_cast; linarith⟩

theorem angleDiff_exists (w : WheelUI) :
    ∃ k : ℤ, angleDiff w = w.target_angle - w.master_angle + 360 * k := by
  obtain ⟨j, hj⟩ := angleDiff_exists_norm w
  obtain ⟨k1, hk1⟩ := qmod_exists w.target_angle 360
  exact ⟨j - k1, by push_cast; linarith⟩

theorem angleDiff_eq_of_congr {w : WheelUI} {d : ℚ} (h1 : -180 < d)
    (h2 : d ≤ 180)
    (h : ∃ k : ℤ, qmod w.target_angle 360 - w.master_angle = d + 360 * k) :
    angleDiff w = d := by
  rw [angleDiff_def]
  have hrw : qmod (qmod w.target_angle 360 - w.master_angle) 360 = qmod d 360 :=
    qmod_congr h
  rw [hrw]
  rcases le_or_lt 0 d with hd | hd
  · have heq : qmod d 360 = d := qmod_eq_self (by norm_num) hd (by linarith)
    rw [heq, if_neg (by linarith)]
  · have hsh : qmod d 360 = qmod (d + 360) 360 := by
      have h1m := qmod_add_int_mul d 360 1
      push_cast at h1m
      rw [mul_one] at h1m
      exact h1m.symm
    have heq : qmod (d + 360) 360 = d + 360 :=
      qmod_eq_self (by norm_num) (by linarith) (by linarith)
    rw [hsh, heq, if_pos (by linarith)]
    ring

theorem update_master_eq (w : WheelUI) :
    (w.update).master_angle =
      qmod (if 1 < |angleDiff w| then w.master_angle + angleDiff w * (15 / 100)
            else qmod w.target_angle 360) 360 := rfl

theorem update_target_eq (w : WheelUI) :
    (w.update).target_angle = qmod w.target_angle 360 := rfl

theorem update_master_mem (w : WheelUI) :
    0 ≤ (w.update).master_angle ∧ (w.update).master_angle < 360 :=
  ⟨qmod_nonneg (by norm_num) _, qmod_lt (by norm_num) _⟩

theorem update_target_mem (w : WheelUI) :
    0 ≤ (w.update).target_angle ∧ (w.update).target_angle < 360 :=
  ⟨qmod_nonneg (by norm_num) _, qmod_lt (by norm_num) _⟩

theorem update_snap {w : WheelUI} (h : ¬ 1 < |angleDiff w|) :
    (w.update).master_angle = (w.update).target_angle := by
  rw [update_master_eq, update_target_eq, if_neg h]
  exact qmod_eq_self (by norm_num) (qmod_nonneg (by norm_num) _)
    (qmod_lt (by norm_num) _)

theorem angleDiff_of_converged {w : WheelUI} (h : w.master_angle = w.target_angle)
    (h0 : 0 ≤ w.target_angle) (h1 : w.target_angle < 360) : angleDiff w = 0 := by
  apply angleDiff_eq_of_congr (by norm_num) (by norm_num)
  refine ⟨0, ?_⟩
  rw [h, qmod_eq_self (by norm_num) h0 h1]
  push_cast
  ring

theorem angleDiff_update (w : WheelUI) :
    angleDiff (w.update) =
      if 1 < |angleDiff w| then (17 / 20) * angleDiff w else 0 := by
  obtain ⟨hb1, hb2⟩ := angleDiff_mem w
  split_ifs with h
  · apply angleDiff_eq_of_congr (by linarith) (by linarith)
    obtain ⟨j, hj⟩ := angleDiff_exists_norm w
    obtain ⟨k2, hk2⟩ := qmod_exists (w.master_angle + angleDiff w * (15 / 100)) 360
    have hta : qmod (w.update).target_angle 360 = qmod w.target_angle 360 := by
      rw [update_target_eq]
      exact qmod_eq_self (by norm_num) (qmod_nonneg (by norm_num) _)
        (qmod_lt (by norm_num) _)
    have hma : (w.update).master_angle =
        w.master_angle + angleDiff w * (15 / 100) - 360 * k2 := by
      rw [update_master_eq, if_pos h]; linarith
    refine ⟨k2 - j, ?_⟩
    rw [hta, hma]
    push_cast
    linarith
  · have hsnap := update_snap h
    apply angleDiff_of_converged hsnap (update_target_mem w).1 (update_target_mem w).2 |>.trans
    rfl

/-- The exponential decay of the remapped difference along iterated frames. -/
theorem angleDiff_decay (w : WheelUI) (k : ℕ) :
    |angleDiff (WheelUI.update^[k] w)| ≤ (17 / 20) ^ k * 180 := by
  induction k with
  | zero =>
    obtain ⟨h1, h2⟩ := angleDiff_mem w
    simp only [Function.iterate_zero_apply, pow_zero, one_mul]
    rw [abs_le]
    constructor <;> linarith
  | succ k ih =>
    rw [Function.iterate_succ_apply', angleDiff_update]
    split_ifs with h
    · rw [abs_mul, abs_of_nonneg (by norm_num : (0:ℚ) ≤ 17 / 20)]
      calc (17 / 20) * |angleDiff (WheelUI.update^[k] w)|
          ≤ (17 / 20) * ((17 / 20) ^ k * 180) := by
            apply mul_le_mul_of_nonneg_left ih (by norm_num)
        _ = (17 / 20) ^ (k + 1) * 180 := by ring
    · simp only [abs_zero]
      positivity

/-- C1: one call of `WheelUI.update` computes the difference
`(targetAngle - currentAngle) mod 360` remapped into `(-180, 180]`, adds
`0.15` of it to `currentAngle` when its magnitude exceeds `1`, snaps
`currentAngle` to exactly `targetAngle` otherwise, and leaves `currentAngle`
normalized into `[0, 360)`. -/
theorem wheel_update_step (w : WheelUI) :
    (-180 < angleDiff w ∧ angleDiff w ≤ 180) ∧
    (∃ k : ℤ, angleDiff w = w.target_angle - w.master_angle + 360 * k) ∧
    (1 < |angleDiff w| →
      (w.update).master_angle =
        qmod (w.master_angle + angleDiff w * (15 / 100)) 360) ∧
    (¬ 1 < |angleDiff w| →
      (w.update).master_angle = (w.update).target_angle ∧
      (w.update).master_angle = qmod w.target_angle 360) ∧
    (0 ≤ (w.update).master_angle ∧ (w.update).master_angle < 360) := by
  refine ⟨angleDiff_mem w, angleDiff_exists w, ?_, ?_, update_master_mem w⟩
  · intro h
    rw [update_master_eq, if_pos h]
  · intro h
    exact ⟨update_snap h, by rw [update_snap h, update_target_eq]⟩

/-- Witness for C1 at a concrete state: from `currentAngle = 0`,
`targetAngle = 90`, the smoothing branch fires. -/
theorem wheel_update_step_witness :
    1 < |angleDiff ⟨0, 0, 0, 90, 4⟩| ∧
    ((⟨0, 0, 0, 90, 4⟩ : WheelUI).update).master_angle =
      qmod ((⟨0, 0, 0, 90, 4⟩ : WheelUI).master_angle +
        angleDiff ⟨0, 0, 0, 90, 4⟩ * (15 / 100)) 360 := by
  have h : 1 < |angleDiff ⟨0, 0, 0, 90, 4⟩| := by
    norm_num [angleDiff_def, qmod]
  exact ⟨h, (wheel_update_step ⟨0, 0, 0, 90, 4⟩).2.2.1 h⟩

/-- C2: from any normalized starting angle and with any fixed target, the
remapped difference shrinks geometrically (by exactly the factor `0.85`, never
changing sign, so the motion never overshoots) and after at most 33 frames
`currentAngle` equals `targetAngle` exactly and stays equal on every further
frame. -/
theorem wheel_convergence (w : WheelUI) (h0 : 0 ≤ w.master_angle)
    (h1 : w.master_angle < 360) :
    (∀ k : ℕ,
      angleDiff (WheelUI.update^[k + 1] w) =
          (17 / 20) * angleDiff (WheelUI.update^[k] w) ∨
        angleDiff (WheelUI.update^[k + 1] w) = 0) ∧
    (∀ k : ℕ, 33 ≤ k →
      (WheelUI.update^[k] w).master_angle =
        (WheelUI.update^[k] w).target_angle) := by
  constructor
  · intro k
    rw [Function.iterate_succ_apply', angleDiff_update]
    split_ifs with h
    · left; rfl
    · right; rfl
  · have h32 := angleDiff_decay w 32
    have hlt : ((17 : ℚ) / 20) ^ 32 * 180 < 1 := by norm_num
    have hsnap : ¬ 1 < |angleDiff (WheelUI.update^[32] w)| :=
      not_lt.mpr (by linarith)
    have h33 : (WheelUI.update^[33] w).master_angle =
        (WheelUI.update^[33] w).target_angle := by
      rw [show (33 : ℕ) = 32 + 1 from rfl, Function.iterate_succ_apply']
      exact update_snap hsnap
    intro k hk
    induction k, hk using Nat.le_induction with
    | base => exact h33
    | succ n hn ih =>
      obtain ⟨m, rfl⟩ : ∃ m, n = m + 1 := ⟨n - 1, by omega⟩
      rw [Function.iterate_succ_apply']
      apply update_snap
      have htm := update_target_mem (WheelUI.update^[m] w)
      have hit : (WheelUI.update^[m] w).update = WheelUI.update^[m + 1] w :=
        (Function.iterate_succ_apply' WheelUI.update m w).symm
      rw [hit] at htm
      have hz : angleDiff (WheelUI.update^[m + 1] w) = 0 :=
        angleDiff_of_converged ih htm.1 htm.2
      rw [hz]
      norm_num

/-- Witness for C2 at a concrete state: `currentAngle = 0`, `targetAngle = 90`,
4 items. -/
theorem wheel_convergence_witness :
    0 ≤ (⟨0, 1, 0, 90, 4⟩ : WheelUI).master_angle ∧
    (⟨0, 1, 0, 90, 4⟩ : WheelUI).master_angle < 360 ∧
    (WheelUI.update^[33] ⟨0, 1, 0, 90, 4⟩).master_angle =
      (WheelUI.update^[33] ⟨0, 1, 0, 90, 4⟩).target_angle :=
  ⟨by norm_num, by norm_num,
   (wheel_convergence ⟨0, 1, 0, 90, 4⟩ (by norm_num) (by norm_num)).2 33 le_rfl⟩

/-! ### The master-angle normalization invariant -/

theorem applyOp_master_left (w : WheelUI) :
    (applyOp w WheelOp.left).master_angle = w.master_angle := by
  simp only [applyOp, keyLeft]
  cases pyMod (w.target_index - 1) (w.num_items : ℤ) <;> rfl

theorem applyOp_master_right (w : WheelUI) :
    (applyOp w WheelOp.right).master_angle = w.master_angle := by
  simp only [applyOp, keyRight]
  cases pyMod (w.target_index + 1) (w.num_items : ℤ) <;> rfl

/-- C6: `master_angle` lies in `[0, 360)` after construction and after every
sequence of key presses and frame updates. -/
theorem master_angle_normalized (n : ℕ) (ops : List WheelOp) :
    0 ≤ (ops.foldl applyOp (WheelUI.init n)).master_angle ∧
    (ops.foldl applyOp (WheelUI.init n)).master_angle < 360 := by
  suffices h : ∀ (ops : List WheelOp) (w : WheelUI), 0 ≤ w.master_angle →
      w.master_angle < 360 →
      0 ≤ (ops.foldl applyOp w).master_angle ∧
      (ops.foldl applyOp w).master_angle < 360 by
    exact h ops (WheelUI.init n) (by norm_num [WheelUI.init])
      (by norm_num [WheelUI.init])
  intro ops
  induction ops with
  | nil => intro w h0 h1; exact ⟨h0, h1⟩
  | cons op rest ih =>
    intro w h0 h1
    rw [List.foldl_cons]
    have hb : 0 ≤ (applyOp w op).master_angle ∧
        (applyOp w op).master_angle < 360 := by
      cases op
      · rw [applyOp_master_left w]; exact ⟨h0, h1⟩
      · rw [applyOp_master_right w]; exact ⟨h0, h1⟩
      · exact update_master_mem w
    exact ih (applyOp w op) hb.1 hb.2

/-! ### Target-index normalization -/

theorem keyLeft_ok (w : WheelUI) (hn : 0 < w.num_items) :
    keyLeft w = .ok { w with
        target_index := (w.target_index - 1) % (w.num_items : ℤ),
        target_angle := angle_increment w.num_items *
          (((w.target_index - 1) % (w.num_items : ℤ) : ℤ) : ℚ) } := by
  unfold keyLeft pyMod
  rw [if_neg (by exact_mod_cast hn.ne')]

theorem keyRight_ok (w : WheelUI) (hn : 0 < w.num_items) :
    keyRight w = .ok { w with
        target_index := (w.target_index + 1) % (w.num_items : ℤ),
        target_angle := angle_increment w.num_items *
          (((w.target_index + 1) % (w.num_items : ℤ) : ℤ) : ℚ) } := by
  unfold keyRight pyMod
  rw [if_neg (by exact_mod_cast hn.ne')]

theorem angle_increment_mul_mem {n : ℕ} (hn : 0 < n) {t : ℤ} (h0 : 0 ≤ t)
    (h1 : t < (n : ℤ)) :
    0 ≤ angle_increment n * (t : ℚ) ∧ angle_increment n * (t : ℚ) < 360 := by
  have hnq : (0 : ℚ) < (n : ℚ) := by exact_mod_cast hn
  have htq : (t : ℚ) < (n : ℚ) := by exact_mod_cast h1
  have ht0 : (0 : ℚ) ≤ (t : ℚ) := by exact_mod_cast h0
  rw [angle_increment, if_pos hn]
  constructor
  · positivity
  · have hlt : 360 / (n : ℚ) * (t : ℚ) < 360 / (n : ℚ) * (n : ℚ) :=
      mul_lt_mul_of_pos_left htq (by positivity)
    have heq : 360 / (n : ℚ) * (n : ℚ) = 360 := by field_simp
    linarith

/-- The state invariant of C4, preserved by every key press and frame. -/
def targetInv (n : ℕ) (w : WheelUI) : Prop :=
  w.num_items = n ∧ 0 ≤ w.target_index ∧ w.target_index < (n : ℤ) ∧
    w.target_angle = angle_increment n * (w.target_index : ℚ)

theorem applyOp_targetInv {n : ℕ} (hn : 0 < n) {w : WheelUI}
    (h : targetInv n w) (op : WheelOp) : targetInv n (applyOp w op) := by
  obtain ⟨hw, h0, h1, ha⟩ := h
  have hnz : (0 : ℤ) < (n : ℤ) := by exact_mod_cast hn
  cases op
  · simp only [applyOp, keyLeft_ok w (hw ▸ hn)]
    refine ⟨hw, ?_, ?_, by rw [hw]⟩
    · exact Int.emod_nonneg _ (by rw [hw]; exact hnz.ne')
    · rw [hw]; exact Int.emod_lt_of_pos _ hnz
  · simp only [applyOp, keyRight_ok w (hw ▸ hn)]
    refine ⟨hw, ?_, ?_, by rw [hw]⟩
    · exact Int.emod_nonneg _ (by rw [hw]; exact hnz.ne')
    · rw [hw]; exact Int.emod_lt_of_pos _ hnz
  · refine ⟨hw, h0, h1, ?_⟩
    show qmod w.target_angle 360 = angle_increment n * (w.target_index : ℚ)
    obtain ⟨hm0, hm1⟩ := angle_increment_mul_mem hn h0 h1
    rw [ha, qmod_eq_self (by norm_num) hm0 hm1]

/-- C4: with a positive item count, every sequence of left/right key presses
(and frames) keeps `target_index` in `[0, itemCount)` and keeps
`target_angle = angle_increment * target_index`; the modulo normalization the
key handlers apply maps a raw index 5 with 4 items to 1. -/
theorem setTarget_normalizes :
    (∀ (w : WheelUI) (ops : List WheelOp), 0 < w.num_items →
        0 ≤ w.target_index → w.target_index < (w.num_items : ℤ) →
        w.target_angle = angle_increment w.num_items * (w.target_index : ℚ) →
        0 ≤ (ops.foldl applyOp w).target_index ∧
        (ops.foldl applyOp w).target_index < (w.num_items : ℤ) ∧
        (ops.foldl applyOp w).target_angle =
          angle_increment w.num_items *
            ((ops.foldl applyOp w).target_index : ℚ)) ∧
    pyMod 5 4 = Except.ok 1 := by
  constructor
  · intro w ops hn h0 h1 ha
    suffices h : ∀ (ops : List WheelOp) (w' : WheelUI),
        targetInv w.num_items w' →
        targetInv w.num_items (ops.foldl applyOp w') by
      obtain ⟨_, r0, r1, r2⟩ := h ops w ⟨rfl, h0, h1, ha⟩
      exact ⟨r0, r1, r2⟩
    intro ops
    induction ops with
    | nil => intro w' h; exact h
    | cons op rest ih =>
      intro w' h
      rw [List.foldl_cons]
      exact ih (applyOp w' op) (applyOp_targetInv hn h op)
  · rfl

/-- Witness for C4 at a concrete state: two right presses from index 3 of 4
wrap back to index 1, with the matching target angle. -/
theorem setTarget_normalizes_witness :
    0 ≤ (([WheelOp.right, WheelOp.right].foldl applyOp
        ⟨0, 3, 0, 270, 4⟩).target_index) ∧
    (([WheelOp.right, WheelOp.right].foldl applyOp
        ⟨0, 3, 0, 270, 4⟩).target_index) < ((4 : ℕ) : ℤ) ∧
    (([WheelOp.right, WheelOp.right].foldl applyOp
        ⟨0, 3, 0, 270, 4⟩).target_angle) =
      angle_increment 4 *
        ((([WheelOp.right, WheelOp.right].foldl applyOp
          ⟨0, 3, 0, 270, 4⟩).target_index : ℤ) : ℚ) :=
  setTarget_normalizes.1 ⟨0, 3, 0, 270, 4⟩ [WheelOp.right, WheelOp.right]
    (by norm_num) (by norm_num) (by norm_num)
    (by norm_num [angle_increment])

/-! ### The bottom-item search -/

theorem itemDist_def (pi master : ℚ) (item : WheelItem) :
    itemDist pi master item =
      if pi < |qmod (item.angle + radians pi master) (2 * pi) - radians pi 90|
      then 2 * pi - |qmod (item.angle + radians pi master) (2 * pi) -
        radians pi 90|
      else |qmod (item.angle + radians pi master) (2 * pi) -
        radians pi 90| := rfl

/-- C7: the per-item distance is the shorter of the direct and wrap-around
paths from the item's effective angle to the bottom reference, and it never
exceeds `pi`. -/
theorem itemDist_shortest (pi master : ℚ) (item : WheelItem) :
    itemDist pi master item =
      min |qmod (item.angle + radians pi master) (2 * pi) - radians pi 90|
        (2 * pi -
          |qmod (item.angle + radians pi master) (2 * pi) - radians pi 90|) ∧
    itemDist pi master item ≤ pi := by
  rw [itemDist_def]
  set d := |qmod (item.angle + radians pi master) (2 * pi) - radians pi 90|
    with hd
  split_ifs with h
  · constructor
    · rw [min_eq_right (by linarith)]
    · linarith
  · constructor
    · rw [min_eq_left (by linarith)]
    · linarith

theorem bottomStep_none (pi master : ℚ) (c : Option WheelItem)
    (item : WheelItem) :
    bottomStep pi master (c, none) item =
      (some item, some (itemDist pi master item)) := rfl

theorem bottomStep_some (pi master : ℚ) (c : Option WheelItem) (m : ℚ)
    (item : WheelItem) :
    bottomStep pi master (c, some m) item =
      if itemDist pi master item < m
      then (some item, some (itemDist pi master item)) else (c, some m) := rfl

/-- Running the selection loop from a current best `c`: the result is the
first strict improvement chain's last winner — a global minimum, strictly
better than every item before its own position. -/
theorem bottomFold_from (pi master : ℚ) :
    ∀ (l : List WheelItem) (c : WheelItem),
      ∃ x, l.foldl (bottomStep pi master)
            (some c, some (itemDist pi master c)) =
          (some x, some (itemDist pi master x)) ∧
        itemDist pi master x ≤ itemDist pi master c ∧
        (∀ y ∈ l, itemDist pi master x ≤ itemDist pi master y) ∧
        (x = c ∨ ∃ l₁ l₂, l = l₁ ++ x :: l₂ ∧
          (∀ y ∈ l₁, itemDist pi master x < itemDist pi master y) ∧
          itemDist pi master x < itemDist pi master c) := by
  intro l
  induction l with
  | nil =>
    intro c
    exact ⟨c, rfl, le_refl _, by simp, Or.inl rfl⟩
  | cons h t ih =>
    intro c
    rw [List.foldl_cons, bottomStep_some]
    by_cases hd : itemDist pi master h < itemDist pi master c
    · rw [if_pos hd]
      obtain ⟨x, hfold, hxc, hmin, hpos⟩ := ih h
      refine ⟨x, hfold, by linarith, ?_, ?_⟩
      · intro y hy
        rcases List.mem_cons.mp hy with rfl | hy
        · exact hxc
        · exact hmin y hy
      · right
        rcases hpos with rfl | ⟨l₁, l₂, rfl, hl₁, hxh⟩
        · exact ⟨[], t, rfl, by simp, hd⟩
        · refine ⟨h :: l₁, l₂, rfl, ?_, by linarith⟩
          intro y hy
          rcases List.mem_cons.mp hy with rfl | hy
          · exact hxh
          · exact hl₁ y hy
    · rw [if_neg hd]
      push_neg at hd
      obtain ⟨x, hfold, hxc, hmin, hpos⟩ := ih c
      refine ⟨x, hfold, hxc, ?_, ?_⟩
      · intro y hy
        rcases List.mem_cons.mp hy with rfl | hy
        · linarith
        · exact hmin y hy
      · rcases hpos with rfl | ⟨l₁, l₂, rfl, hl₁, hxc'⟩
        · exact Or.inl rfl
        · right
          refine ⟨h :: l₁, l₂, rfl, ?_, hxc'⟩
          intro y hy
          rcases List.mem_cons.mp hy with rfl | hy
          · linarith
          · exact hl₁ y hy

/-- The search on a non-empty collection returns the first item attaining the
minimum distance. -/
theorem get_bottom_spec (pi : ℚ) (w : WheelUI) (h : WheelItem)
    (t : List WheelItem) :
    ∃ x l₁ l₂, h :: t = l₁ ++ x :: l₂ ∧
      w.get_bottom_item pi (h :: t) = some x ∧
      (∀ y ∈ h :: t,
        itemDist pi w.master_angle x ≤ itemDist pi w.master_angle y) ∧
      (∀ y ∈ l₁,
        itemDist pi w.master_angle x < itemDist pi w.master_angle y) := by
  obtain ⟨x, hfold, hxc, hmin, hpos⟩ := bottomFold_from pi w.master_angle t h
  have hres : w.get_bottom_item pi (h :: t) = some x := by
    unfold WheelUI.get_bottom_item
    rw [List.foldl_cons, bottomStep_none, hfold]
  rcases hpos with rfl | ⟨l₁, l₂, rfl, hl₁, hxh⟩
  · refine ⟨x, [], t, rfl, hres, ?_, by simp⟩
    intro y hy
    rcases List.mem_cons.mp hy with rfl | hy
    · exact le_refl _
    · exact hmin y hy
  · refine ⟨x, h :: l₁, l₂, rfl, hres, ?_, ?_⟩
    · intro y hy
      rcases List.mem_cons.mp hy with rfl | hy
      · exact hxc
      · exact hmin y hy
    · intro y hy
      rcases List.mem_cons.mp hy with rfl | hy
      · exact hxh
      · exact hl₁ y hy

/-- C10: the bottom-item search is total — `none` exactly on the empty
collection, and on a non-empty collection it returns a member: the first item
attaining the minimum angular distance (every earlier item is strictly
farther, and nothing in the collection is closer). -/
theorem get_bottom_total :
    (∀ (pi : ℚ) (w : WheelUI), w.get_bottom_item pi [] = none) ∧
    (∀ (pi : ℚ) (w : WheelUI) (items : List WheelItem), items ≠ [] →
      ∃ x l₁ l₂, items = l₁ ++ x :: l₂ ∧
        w.get_bottom_item pi items = some x ∧
        (∀ y ∈ items,
          itemDist pi w.master_angle x ≤ itemDist pi w.master_angle y) ∧
        (∀ y ∈ l₁,
          itemDist pi w.master_angle x < itemDist pi w.master_angle y)) := by
  constructor
  · intro pi w
    rfl
  · intro pi w items hne
    obtain ⟨h, t, rfl⟩ := List.exists_cons_of_ne_nil hne
    exact get_bottom_spec pi w h t

/-- Witness for C10 on the concrete two-item collection of a 2-item wheel. -/
theorem get_bottom_total_witness :
    ∃ x l₁ l₂, mkItems 3 2 = l₁ ++ x :: l₂ ∧
      WheelUI.get_bottom_item 3 ⟨0, 0, 0, 0, 2⟩ (mkItems 3 2) = some x ∧
      (∀ y ∈ mkItems 3 2,
        itemDist 3 (⟨0, 0, 0, 0, 2⟩ : WheelUI).master_angle x ≤
          itemDist 3 (⟨0, 0, 0, 0, 2⟩ : WheelUI).master_angle y) ∧
      (∀ y ∈ l₁,
        itemDist 3 (⟨0, 0, 0, 0, 2⟩ : WheelUI).master_angle x <
          itemDist 3 (⟨0, 0, 0, 0, 2⟩ : WheelUI).master_angle y) :=
  get_bottom_total.2 3 ⟨0, 0, 0, 0, 2⟩ (mkItems 3 2)
    (by simp [mkItems, List.range_succ])

/-! ### Agreement of the geometric search with the index formula -/

theorem qmod_mul_left {c : ℚ} (hc : c ≠ 0) (x m : ℚ) :
    qmod (c * x) (c * m) = c * qmod x m := by
  unfold qmod
  rw [mul_div_mul_left x m hc]
  ring

theorem qmod_eq_iff_exists {m : ℚ} (hm : 0 < m) {x r : ℚ} (h0 : 0 ≤ r)
    (h1 : r < m) : qmod x m = r ↔ ∃ k : ℤ, x = r + m * k := by
  constructor
  · intro h
    obtain ⟨k, hk⟩ := qmod_exists x m
    exact ⟨k, by rw [hk, h]⟩
  · intro h
    rw [qmod_congr h, qmod_eq_self hm h0 h1]

/-- The angular distance measured in degrees: the radian computation of
`itemDist` is this, scaled by `pi / 180`. -/
def distDeg (th : ℚ) : ℚ :=
  if 180 < |th - 90| then 360 - |th - 90| else |th - 90|

theorem itemDist_deg {pi : ℚ} (hpi : 0 < pi) (n i : ℕ) (master : ℚ) :
    itemDist pi master (mkItem pi n i) =
      pi / 180 *
        distDeg (qmod (angle_increment n * (i : ℚ) + 90 + master) 360) := by
  have hc : (0 : ℚ) < pi / 180 := by positivity
  have harg : (mkItem pi n i).angle + radians pi master =
      pi / 180 * (angle_increment n * (i : ℚ) + 90 + master) := by
    simp only [mkItem, radians]
    ring
  have h2pi : 2 * pi = pi / 180 * 360 := by ring
  have h90 : radians pi 90 = pi / 180 * 90 := by
    simp only [radians]
    ring
  rw [itemDist_def, harg, h2pi, qmod_mul_left (by positivity) , h90]
  set th := qmod (angle_increment n * (i : ℚ) + 90 + master) 360 with hth
  have habs : |pi / 180 * th - pi / 180 * 90| = pi / 180 * |th - 90| := by
    rw [show pi / 180 * th - pi / 180 * 90 = pi / 180 * (th - 90) by ring,
      abs_mul, abs_of_pos hc]
  rw [habs, distDeg]
  have hcond : (pi < pi / 180 * |th - 90|) ↔ (180 < |th - 90|) := by
    constructor
    · intro h; nlinarith
    · intro h; nlinarith
  split_ifs with h1 h2 h2
  · ring
  · exact absurd (hcond.mp h1) h2
  · exact absurd (hcond.mpr h2) h1
  · rfl

theorem distDeg_nonneg {th : ℚ} (h0 : 0 ≤ th) (h1 : th < 360) :
    0 ≤ distDeg th := by
  rw [distDeg]
  have habs : |th - 90| ≤ 270 := abs_le.mpr ⟨by linarith, by linarith⟩
  split_ifs with h
  · linarith
  · exact abs_nonneg _

theorem distDeg_eq_zero {th : ℚ} (h0 : 0 ≤ th) (h1 : th < 360) :
    distDeg th = 0 ↔ th = 90 := by
  rw [distDeg]
  have habs : |th - 90| ≤ 270 := abs_le.mpr ⟨by linarith, by linarith⟩
  split_ifs with h
  · constructor
    · intro hz; linarith
    · intro hth; subst hth; norm_num at h
  · rw [abs_eq_zero, sub_eq_zero]

theorem theta_eq_90_iff {n : ℕ} (hn : 0 < n) (i t : ℕ) :
    qmod (angle_increment n * (i : ℚ) + 90 + angle_increment n * (t : ℚ))
        360 = 90 ↔ n ∣ (i + t) := by
  have hnq : ((n : ℚ)) ≠ 0 := by exact_mod_cast hn.ne'
  rw [qmod_eq_iff_exists (by norm_num) (by norm_num) (by norm_num),
    angle_increment, if_pos hn]
  constructor
  · rintro ⟨k, hk⟩
    have hq : ((i : ℚ) + (t : ℚ)) = (n : ℚ) * (k : ℚ) := by
      field_simp at hk
      linarith
    have hz : ((i + t : ℕ) : ℤ) = (n : ℤ) * k := by
      push_cast
      exact_mod_cast hq
    exact Int.ofNat_dvd.mp ⟨k, hz⟩
  · rintro ⟨c, hc⟩
    refine ⟨(c : ℤ), ?_⟩
    have hq : (i : ℚ) + (t : ℚ) = (n : ℚ) * (c : ℚ) := by
      exact_mod_cast hc
    push_cast
    field_simp
    linarith [mul_comm (n : ℚ) (c : ℚ)]

theorem bottom_index_unique {n t i : ℕ} (hn : 0 < n) (ht : t < n)
    (hi : i < n) : n ∣ (i + t) ↔ i = (n - t) % n := by
  constructor
  · rintro ⟨c, hc⟩
    have hc2 : c < 2 := by
      by_contra hge
      push_neg at hge
      have : n * 2 ≤ n * c := Nat.mul_le_mul_left n hge
      omega
    interval_cases c
    · have ht0 : t = 0 := by omega
      have hi0 : i = 0 := by omega
      subst ht0; subst hi0
      simp [Nat.mod_self]
    · have htpos : 0 < t := by omega
      have : i = n - t := by omega
      subst this
      rw [Nat.mod_eq_of_lt (by omega)]
  · intro hi0
    by_cases ht0 : t = 0
    · subst ht0
      rw [Nat.sub_zero, Nat.mod_self] at hi0
      subst hi0
      simp
    · rw [Nat.mod_eq_of_lt (by omega)] at hi0
      subst hi0
      exact ⟨1, by omega⟩

/-- C3: once the wheel is at rest on target `t` (of `n > 0` items), the item
returned by `get_bottom_item` carries exactly the catalog index the
`draw_menu` reflection formula `(abs(n - 1 - t) + 1) % n = (n - t) % n`
computes. -/
theorem selection_agreement (pi : ℚ) (hpi : 0 < pi) (n : ℕ) (hn : 0 < n)
    (t : ℕ) (ht : t < n) (w : WheelUI)
    (hw : w.master_angle = angle_increment n * (t : ℚ)) :
    ∃ x, w.get_bottom_item pi (mkItems pi n) = some x ∧
      selected_index n (t : ℤ) = Except.ok ((x.index : ℤ)) ∧
      (x.index : ℤ) = ((n : ℤ) - (t : ℤ)) % (n : ℤ) := by
  have hne : mkItems pi n ≠ [] := by
    simp only [mkItems, ne_eq, List.map_eq_nil_iff, List.range_eq_nil]
    omega
  obtain ⟨hd, tl, hcons⟩ := List.exists_cons_of_ne_nil hne
  obtain ⟨x, l₁, l₂, hsplit, hres, hmin, hfirst⟩ := get_bottom_spec pi w hd tl
  rw [← hcons] at hsplit hres hmin
  have hxmem : x ∈ mkItems pi n := by
    rw [hsplit]
    exact List.mem_append_right _ (List.mem_cons_self _ _)
  obtain ⟨i, hirange, hxeq⟩ := List.mem_map.mp hxmem
  have hi : i < n := List.mem_range.mp hirange
  set i0 := (n - t) % n with hi0def
  have hi0lt : i0 < n := Nat.mod_lt _ hn
  have hdvd0 : n ∣ (i0 + t) := (bottom_index_unique hn ht hi0lt).mpr rfl
  have hmem0 : mkItem pi n i0 ∈ mkItems pi n :=
    List.mem_map.mpr ⟨i0, List.mem_range.mpr hi0lt, rfl⟩
  have hdist0 : itemDist pi w.master_angle (mkItem pi n i0) = 0 := by
    rw [hw, itemDist_deg hpi]
    rw [(distDeg_eq_zero (qmod_nonneg (by norm_num) _)
      (qmod_lt (by norm_num) _)).mpr ((theta_eq_90_iff hn i0 t).mpr hdvd0)]
    ring
  have hxle : itemDist pi w.master_angle x ≤ 0 := hdist0 ▸ hmin _ hmem0
  have hxge : 0 ≤ itemDist pi w.master_angle x := by
    rw [← hxeq, hw, itemDist_deg hpi]
    have := distDeg_nonneg (qmod_nonneg (by norm_num)
      (angle_increment n * (i : ℚ) + 90 + angle_increment n * (t : ℚ)))
      (qmod_lt (by norm_num) _)
    positivity
  have hxzero : itemDist pi w.master_angle x = 0 := le_antisymm hxle hxge
  have hth : qmod (angle_increment n * (i : ℚ) + 90 +
      angle_increment n * (t : ℚ)) 360 = 90 := by
    rw [← hxeq, hw, itemDist_deg hpi] at hxzero
    have hd0 : distDeg (qmod (angle_increment n * (i : ℚ) + 90 +
        angle_increment n * (t : ℚ)) 360) = 0 := by
      have hc : (0 : ℚ) < pi / 180 := by positivity
      by_contra hne0
      have hpos : 0 < distDeg (qmod (angle_increment n * (i : ℚ) + 90 +
          angle_increment n * (t : ℚ)) 360) :=
        lt_of_le_of_ne (distDeg_nonneg (qmod_nonneg (by norm_num) _)
          (qmod_lt (by norm_num) _)) (Ne.symm hne0)
      nlinarith
    exact (distDeg_eq_zero (qmod_nonneg (by norm_num) _)
      (qmod_lt (by norm_num) _)).mp hd0
  have hieq : i = i0 :=
    (bottom_index_unique hn ht hi).mp ((theta_eq_90_iff hn i t).mp hth)
  have hxidx : x.index = i0 := by
    rw [← hxeq, mkItem, ← hieq]
  have hkey : ((n : ℤ) - (t : ℤ)) % (n : ℤ) = (i0 : ℤ) := by
    by_cases ht0 : t = 0
    · subst ht0
      simp only [Nat.cast_zero, sub_zero, Int.emod_self]
      simp [hi0def, Nat.mod_self]
    · rw [Int.emod_eq_of_lt (by omega) (by omega)]
      have hi0v : i0 = n - t := by
        rw [hi0def, Nat.mod_eq_of_lt (by omega)]
      rw [hi0v]
      push_cast [Nat.cast_sub ht.le]
      ring
  refine ⟨x, hres, ?_, by rw [hxidx]; exact hkey.symm⟩
  unfold selected_index pyMod
  rw [if_neg (by exact_mod_cast hn.ne')]
  congr 1
  rw [hxidx, ← hkey]
  have habs : |(n : ℤ) - 1 - (t : ℤ)| = (n : ℤ) - 1 - (t : ℤ) :=
    abs_of_nonneg (by omega)
  rw [habs]
  congr 1
  ring

/-- Witness for C3: 4 items, target index 1, wheel at rest on `90°`. -/
theorem selection_agreement_witness :
    ∃ x, WheelUI.get_bottom_item 3 ⟨1, 1, 90, 90, 4⟩ (mkItems 3 4) = some x ∧
      selected_index 4 ((1 : ℕ) : ℤ) = Except.ok ((x.index : ℤ)) ∧
      (x.index : ℤ) = (((4 : ℕ) : ℤ) - ((1 : ℕ) : ℤ)) % ((4 : ℕ) : ℤ) :=
  selection_agreement 3 (by norm_num) 4 (by norm_num) 1 (by norm_num)
    ⟨1, 1, 90, 90, 4⟩ (by norm_num [angle_increment])

/-! ### The grow/shrink animation window -/

/-- Amended C9: the selected (bottom) item grows exactly when the plain
absolute difference `|master_angle - target_angle|` is below `6` — not the
wrap-around angular separation — and an item shrinks exactly when it is not
the selected item (when the selected item is outside the window its size is
left unchanged). -/
theorem zoom_trigger (pi : ℚ) (w : WheelUI) (items : List WheelItem)
    (it : WheelItem) :
    (drawZoom pi w items it = ZoomAction.zoomIn ↔
      ∃ b, w.get_bottom_item pi items = some b ∧ it.index = b.index ∧
        |w.master_angle - w.target_angle| < 6) ∧
    (drawZoom pi w items it = ZoomAction.zoomOut ↔
      w.get_bottom_item pi items = none ∨
        ∃ b, w.get_bottom_item pi items = some b ∧ it.index ≠ b.index) := by
  unfold drawZoom
  cases hb : w.get_bottom_item pi items with
  | none => simp
  | some b =>
    by_cases hidx : it.index = b.index
    · by_cases habs : |w.master_angle - w.target_angle| < 6
      · simp [hidx, habs]
      · simp [hidx, habs]
    · simp [hidx]

/-- Counterexample to C9 as stated: with one item, `master_angle = 0` and
`target_angle = 356`, the wrap-around angular separation is `4 < 6`, yet the
selected item neither grows (the code compares the plain difference `356`
against `6`) nor shrinks (the shrink branch is only taken by non-selected
items). -/
theorem zoom_trigger_counterexample :
    min |(0 : ℚ) - 356| (360 - |(0 : ℚ) - 356|) < 6 ∧
    drawZoom 3 ⟨0, 0, 0, 356, 1⟩ (mkItems 3 1) (mkItem 3 1 0) =
      ZoomAction.keep := by
  constructor
  · norm_num
  · norm_num [drawZoom, WheelUI.get_bottom_item, mkItems, mkItem, bottomStep,
      itemDist, radians, angle_increment, qmod, List.range_succ]

/-! ### The power-button debounce -/

/-- C8: a press is accepted (emits one quit event and advances the
remembered time) iff it arrives at least `debounce_time` after the last
accepted press; a rejected press leaves the monitor unchanged, so two presses
inside one window produce exactly one quit event. -/
theorem debounce_quit (deb last t1 t2 : ℚ) (h1 : deb ≤ t1 - last)
    (h2 : t2 - t1 < deb) :
    (∀ (m : PowerButtonMonitor) (t : ℚ),
      ((handlePress m t).2 = true ↔ m.debounce_time ≤ t - m.last_time) ∧
      ((handlePress m t).2 = false → handlePress m t = (m, false))) ∧
    monitorRun ⟨deb, last⟩ [t1, t2] = [t1] := by
  constructor
  · intro m t
    unfold handlePress
    split_ifs with h
    · simp [h]
    · simp [h]
  · have hrej : ¬ deb ≤ t2 - t1 := not_le.mpr h2
    simp [monitorRun, handlePress, h1, hrej]

/-- Witness for C8: presses at `t = 1 s` and `t = 1.1 s` with the default
200 ms window produce one quit event. -/
theorem debounce_quit_witness :
    monitorRun ⟨1 / 5, 0⟩ [1, 11 / 10] = [1] :=
  (debounce_quit (1 / 5) 0 1 (11 / 10) (by norm_num) (by norm_num)).2

/-! ### The zero-item catalog -/

/-- C5 (code bug): with an empty catalog the per-frame selection arithmetic
of `draw_menu` and both key handlers hit Python's unguarded modulo-by-zero
(`ZeroDivisionError`) instead of a guarded, defined error — even though
`WheelUI.__init__` itself guards `angle_increment` against `num_items = 0`. -/
theorem zero_items_crash :
    selected_index 0 0 = Except.error PyError.zeroDivision ∧
    keyLeft (WheelUI.init 0) = Except.error PyError.zeroDivision ∧
    keyRight (WheelUI.init 0) = Except.error PyError.zeroDivision :=
  ⟨rfl, rfl, rfl⟩

end Shugr
